import Mathlib

/-!
Shallow embedding of the message persistence and conversation-state
subsystem of terminalchat's server (src/server.py), together with proofs
about the claims of its specification.  The server keeps its whole state
in JSON files; we model that state explicitly and each HTTP handler as a
function from state (plus request data) to state and response.
-/

namespace TerminalChat

/-- A chat message record as stored in the per-pair JSON files
(see save_message and send_message in server.py). -/
structure Message where
  sender : String
  recipient : String
  content : String
  timestamp : String
  read : Bool
  is_file : Bool
  file_id : Option String := none
deriving DecidableEq

/-- The persistent server state: users.json (usernames), tokens.json
(token to username), the messages directory (filename paired with the
list of messages in that file, kept in directory-listing order), the
files directory (stored filename paired with the raw saved bytes), and
blocked.json (blocker to list of blocked usernames). -/
structure ServerState where
  users : List String := []
  tokens : List (String × String) := []
  msgFiles : List (String × List Message) := []
  blobs : List (String × String) := []
  blocked : List (String × List String) := []
deriving DecidableEq

/-- Dictionary lookup on an association list keyed by strings. -/
def assocGet {α : Type} : List (String × α) → String → Option α
  | [], _ => none
  | (k, v) :: rest, key => if k = key then some v else assocGet rest key

/-- Dictionary write: overwrite the entry in place when the key is
present, append a new entry when it is absent (writing a file either
overwrites it or creates it at the end of the directory listing). -/
def assocSet {α : Type} : List (String × α) → String → α → List (String × α)
  | [], key, v => [(key, v)]
  | (k, w) :: rest, key, v =>
    if k = key then (key, v) :: rest else (k, w) :: assocSet rest key v

/-- Code-point lexicographic less-or-equal on character lists, which is
how Python compares strings: first differing code point decides, a
prefix sorts before its extensions. -/
def charListLe : List Char → List Char → Bool
  | [], _ => true
  | _ :: _, [] => false
  | a :: as, b :: bs => if a = b then charListLe as bs else decide (a < b)

/-- Python string comparison, code-point lexicographic. -/
def strLe (a b : String) : Bool := charListLe a.data b.data

/-- Python startswith on code points. -/
def strStartsWith (s p : String) : Bool := p.data.isPrefixOf s.data

/-- Python endswith on code points. -/
def strEndsWith (s p : String) : Bool := p.data.reverse.isPrefixOf s.data.reverse

/-- Python split on a one-character separator, on the character list. -/
def splitOnChar (c : Char) : List Char → List (List Char)
  | [] => [[]]
  | x :: xs =>
    match splitOnChar c xs with
    | r :: rs => if x = c then [] :: r :: rs else (x :: r) :: rs
    | [] => if x = c then [[], []] else [[x]]

/-- Python split on a one-character separator. -/
def strSplitOn (s : String) (c : Char) : List String :=
  (splitOnChar c s.data).map String.mk

/-- The message file name used throughout server.py for the directed
pair sender, recipient. -/
def fname (a b : String) : String := a ++ "_" ++ b ++ ".json"

/-- Contents of a message file, the empty list when the file does not
exist (the code treats a missing file as no messages). -/
def fileD (st : ServerState) (k : String) : List Message :=
  (assocGet st.msgFiles k).getD []

/-- Whether a message file exists (os.path.exists on the message path). -/
def hasFile (st : ServerState) (k : String) : Bool :=
  (assocGet st.msgFiles k).isSome

/-- Every two character lists compare one way or the other. -/
theorem charListLe_total : ∀ x y : List Char, charListLe x y = true ∨ charListLe y x = true
  | [], _ => Or.inl rfl
  | _ :: _, [] => Or.inr rfl
  | a :: as, b :: bs => by
    by_cases hab : a = b
    · subst hab
      rcases charListLe_total as bs with h | h
      · exact Or.inl (by simp [charListLe, h])
      · exact Or.inr (by simp [charListLe, h])
    · rcases lt_or_gt_of_ne (fun hv => hab hv) with h | h
      · exact Or.inl (by simp [charListLe, hab, h])
      · have hba : ¬ b = a := fun hv => hab hv.symm
        exact Or.inr (by simp [charListLe, hba, h])

/-- Code-point lexicographic comparison is transitive. -/
theorem charListLe_trans : ∀ {x y z : List Char},
    charListLe x y = true → charListLe y z = true → charListLe x z = true
  | [], _, _, _, _ => rfl
  | a :: as, b :: bs, [], _, h2 => by simp [charListLe] at h2
  | a :: as, [], _, h1, _ => by simp [charListLe] at h1
  | a :: as, b :: bs, c :: cs, h1, h2 => by
    by_cases hab : a = b
    · subst hab
      by_cases hbc : a = c
      · subst hbc
        simp only [charListLe, if_pos rfl] at h1 h2 ⊢
        exact charListLe_trans h1 h2
      · simp only [charListLe, if_pos rfl] at h1
        simpa [charListLe, hbc] using h2
    · by_cases hbc : b = c
      · subst hbc
        simpa [charListLe, hab] using h1
      · have h1c : a < b := by simpa [charListLe, hab] using h1
        have h2c : b < c := by simpa [charListLe, hbc] using h2
        have hac : a < c := lt_trans h1c h2c
        have hne : ¬ a = c := fun hv => absurd hac (by simp [hv])
        simp [charListLe, hne, hac]

/-- The comparison used by the sort in get_messages: Python's
lexicographic order on the ISO timestamp strings. -/
def tsLe (a b : Message) : Prop := strLe a.timestamp b.timestamp = true

instance : DecidableRel tsLe := fun a b =>
  inferInstanceAs (Decidable (strLe a.timestamp b.timestamp = true))

instance : IsTotal Message tsLe :=
  ⟨fun a b => charListLe_total a.timestamp.data b.timestamp.data⟩

instance : IsTrans Message tsLe := ⟨fun _ _ _ h h2 => charListLe_trans h h2⟩

/-- Transitivity of the timestamp order, in the form the sort lemmas use. -/
theorem tsLe_trans {a b c : Message} (h1 : tsLe a b) (h2 : tsLe b c) : tsLe a c :=
  charListLe_trans h1 h2

/-- get_messages (server.py lines 80-106): read the sender_recipient
file and the recipient_sender file, concatenate, and stably sort by
timestamp string.  Python's list.sort is a stable sort, which is what
insertionSort implements. -/
def getMessages (st : ServerState) (sender recipient : String) : List Message :=
  List.insertionSort tsLe
    (fileD st (fname sender recipient) ++ fileD st (fname recipient sender))

/-- save_message (server.py lines 108-125): append the message to the
sender_recipient file only, creating the file when absent. -/
def saveMessage (st : ServerState) (sender recipient : String) (m : Message) :
    ServerState :=
  { st with msgFiles := assocSet st.msgFiles (fname sender recipient)
                          ((assocGet st.msgFiles (fname sender recipient)).getD [] ++ [m]) }

/-- One step of the mark-as-read pass of GET /messages: flip read on a
message addressed to the reader that is still unread, leave every other
message alone. -/
def markOne (reader : String) (m : Message) : Message :=
  if m.recipient == reader && !m.read then { m with read := true } else m

/-- The whole mark-as-read pass over a message list. -/
def markAll (reader : String) (l : List Message) : List Message :=
  l.map (markOne reader)

/-- Overwrite a message file only when it already exists, as the
exists-guarded json.dump calls in get_user_messages do. -/
def writeBack (st : ServerState) (k : String) (l : List Message) : ServerState :=
  if hasFile st k then { st with msgFiles := assocSet st.msgFiles k l } else st

/-- Core of GET /messages/recipient after token resolution (server.py
lines 254-273): merge and sort both directional files, mark the
reader's unread messages read, then write each directional file that
exists back with the marked messages whose sender matches that
direction, and return the whole marked list. -/
def fetchConv (st : ServerState) (reader peer : String) :
    ServerState × List Message :=
  let msgs := markAll reader (getMessages st reader peer)
  let st1 := writeBack st (fname reader peer)
    (msgs.filter (fun m => m.sender == reader))
  let st2 := writeBack st1 (fname peer reader)
    (msgs.filter (fun m => m.sender == peer))
  (st2, msgs)

/-- Strip an optional Bearer prefix from a token, as get_user_by_token
does (server.py lines 71-73). -/
def stripBearer (t : String) : String :=
  if strStartsWith t "Bearer " then t.drop 7 else t

/-- get_user_by_token: strip the Bearer prefix, then look the token up. -/
def getUserByToken (st : ServerState) (t : String) : Option String :=
  assocGet st.tokens (stripBearer t)

/-- Python truthiness of an optional header or body field: absent or
empty string is falsy. -/
def truthy : Option String → Option String
  | none => none
  | some s => if s = "" then none else some s

/-- HTTP-level outcome of an endpoint. -/
inductive Resp where
  | success (code : Nat)
  | err (code : Nat) (msg : String)
deriving DecidableEq

/-- POST /messages/recipient (server.py lines 276-308): authorization
header check, token resolution, content check, then save_message.  The
handler consults neither blocked.json nor the block registry in any
form before saving. -/
def sendMessageEp (st : ServerState) (auth : Option String) (recipient : String)
    (content : Option String) (now : String) : ServerState × Resp :=
  match truthy auth with
  | none => (st, .err 401 "Authorization token is required")
  | some tok =>
    match getUserByToken st tok with
    | none => (st, .err 401 "Invalid token")
    | some sender =>
      match truthy content with
      | none => (st, .err 400 "Message content is required")
      | some c =>
        (saveMessage st sender recipient
          { sender := sender, recipient := recipient, content := c,
            timestamp := now, read := false, is_file := false },
         .success 201)

/-- The symmetric blocked check of GET /blocked (server.py lines
566-568): a is blocked with b when either has the other in its entry of
blocked.json. -/
def isBlockedPair (st : ServerState) (a b : String) : Bool :=
  ((assocGet st.blocked a).getD []).contains b ||
    ((assocGet st.blocked b).getD []).contains a

/-- POST /logout (server.py lines 485-500): success in every case; when
a header is present the handler deletes that exact header string from
the token table, without stripping a Bearer prefix first. -/
def logoutEp (st : ServerState) (auth : Option String) : ServerState × Resp :=
  match truthy auth with
  | none => (st, .success 200)
  | some tok =>
    if (assocGet st.tokens tok).isSome then
      ({ st with tokens := st.tokens.filter (fun p => p.1 != tok) }, .success 200)
    else (st, .success 200)

/-- Parse a message filename into two usernames the way the listdir
loops do (server.py lines 131-135 and 455-459): require the json
suffix, split on underscores, take the first two parts and strip the
extension from the second part. -/
def fileUsers (filename : String) : Option (String × String) :=
  if strEndsWith filename ".json" then
    match strSplitOn filename '_' with
    | u1 :: p2 :: _ => some (u1, (strSplitOn p2 '.').headD "")
    | _ => none
  else none

/-- Whether the parsed filename mentions the given user. -/
def involvesUser (u : String) (filename : String) : Bool :=
  match fileUsers filename with
  | some (a, b) => a == u || b == u
  | none => false

/-- Account deletion after authentication (server.py lines 442-481):
drop the user, drop every message file whose parsed name mentions the
user, drop every stored blob that parses as JSON carrying this user as
sender, and drop every token bound to the user.  The jsonSender
argument models json.load on the raw stored bytes followed by reading
the sender key: some s when the bytes parse to an object whose sender
is s, none when parsing fails or the key is missing (the except branch
keeps the file in those cases). -/
def deleteAccountCore (st : ServerState) (username : String)
    (jsonSender : String → Option String) : ServerState :=
  { st with
    users := st.users.filter (fun u => u != username),
    msgFiles := st.msgFiles.filter (fun f => !(involvesUser username f.1)),
    blobs := st.blobs.filter (fun b => !(jsonSender b.2 == some username)),
    tokens := st.tokens.filter (fun p => p.2 != username) }

/-- DELETE /account (server.py lines 425-483): header check, explicit
Bearer strip, token resolution, existence check, then the purge. -/
def deleteAccountEp (st : ServerState) (auth : Option String)
    (jsonSender : String → Option String) : ServerState × Resp :=
  match truthy auth with
  | none => (st, .err 401 "Authorization token is required")
  | some tok0 =>
    match getUserByToken st (stripBearer tok0) with
    | none => (st, .err 401 "Invalid token")
    | some username =>
      if st.users.contains username then
        (deleteAccountCore st username jsonSender, .success 200)
      else (st, .err 404 "User not found")

/-- A derived chat summary row as built by get_user_chats. -/
structure Chat where
  username : String
  last_message : String
  timestamp : String
  is_file : Bool
  unread : Nat
deriving DecidableEq

/-- Descending timestamp order on chat rows (Python sort with reverse
set, which is stable). -/
def chatGe (a b : Chat) : Prop := strLe b.timestamp a.timestamp = true

instance : DecidableRel chatGe := fun a b =>
  inferInstanceAs (Decidable (strLe b.timestamp a.timestamp = true))

instance : IsTotal Chat chatGe :=
  ⟨fun a b => charListLe_total b.timestamp.data a.timestamp.data⟩

instance : IsTrans Chat chatGe := ⟨fun _ _ _ h h2 => charListLe_trans h2 h⟩

/-- The summary row contributed by one directory entry, when its parsed
name mentions the user and the merged conversation is nonempty
(server.py lines 130-151). -/
def chatOfFile (st : ServerState) (username : String) (f : String × List Message) :
    Option Chat :=
  match fileUsers f.1 with
  | none => none
  | some (u1, u2) =>
    if u1 == username || u2 == username then
      let other := if u1 == username then u2 else u1
      let messages := getMessages st u1 u2
      match messages.getLast? with
      | none => none
      | some last =>
        some { username := other, last_message := last.content,
               timestamp := last.timestamp, is_file := last.is_file,
               unread := (messages.filter
                 (fun m => m.recipient == username && !m.read)).length }
    else none

/-- get_user_chats (server.py lines 127-156): one candidate row per
directory entry in listing order, then a stable sort by timestamp
descending. -/
def getUserChats (st : ServerState) (username : String) : List Chat :=
  List.insertionSort chatGe (st.msgFiles.filterMap (chatOfFile st username))

/-- DELETE /chats/username core (server.py lines 413-421): remove both
directional files when they exist. -/
def deleteChatCore (st : ServerState) (user peer : String) : ServerState :=
  { st with msgFiles := st.msgFiles.filter
                          (fun f => f.1 != fname user peer && f.1 != fname peer user) }

/-- The mutating operations of the service, taken after authentication,
used to state system-wide invariants over all state transitions. -/
inductive Op where
  | send (sender recipient content now : String)
  | sendFile (sender recipient origName fileId bytes now : String)
  | fetch (reader peer : String)
  | delChat (user peer : String)
  | delAccount (username : String) (jsonSender : String → Option String)
  | logout (auth : Option String)

/-- The state transition performed by each operation. -/
def Op.step (op : Op) (st : ServerState) : ServerState :=
  match op with
  | .send s r c now =>
      saveMessage st s r
        { sender := s, recipient := r, content := c, timestamp := now,
          read := false, is_file := false }
  | .sendFile s r orig fid bytes now =>
      saveMessage { st with blobs := st.blobs ++ [(fid, bytes)] } s r
        { sender := s, recipient := r, content := orig, timestamp := now,
          read := false, is_file := true, file_id := some fid }
  | .fetch r p => (fetchConv st r p).1
  | .delChat u p => deleteChatCore st u p
  | .delAccount u js => deleteAccountCore st u js
  | .logout auth => (logoutEp st auth).1

/-- The message record an operation newly appends, if any. -/
def Op.newMsgs : Op → List Message
  | .send s r c now =>
      [{ sender := s, recipient := r, content := c, timestamp := now,
         read := false, is_file := false }]
  | .sendFile s r orig fid _ now =>
      [{ sender := s, recipient := r, content := orig, timestamp := now,
         read := false, is_file := true, file_id := some fid }]
  | _ => []

/-- A message with its read flag cleared, used to compare message lists
up to read flags. -/
def eraseRead (m : Message) : Message := { m with read := false }

/-! ### Helper lemmas about dictionaries, the stable sort and the mark pass -/

theorem assocGet_assocSet {α : Type} (fs : List (String × α)) (k k2 : String) (v : α) :
    assocGet (assocSet fs k v) k2 = if k = k2 then some v else assocGet fs k2 := by
  induction fs with
  | nil => by_cases h2 : k = k2 <;> simp [assocGet, assocSet, h2]
  | cons hd tl ih =>
    obtain ⟨k0, v0⟩ := hd
    by_cases h0 : k0 = k
    · subst h0
      by_cases h2 : k0 = k2 <;> simp [assocSet, assocGet, h2]
    · by_cases h2 : k0 = k2
      · subst h2
        have hne : ¬ k = k0 := fun hh => h0 hh.symm
        simp [assocSet, assocGet, h0, hne]
      · simp [assocSet, assocGet, h0, h2, ih]

theorem assocSet_assocSet {α : Type} (fs : List (String × α)) (k : String) (v w : α) :
    assocSet (assocSet fs k v) k w = assocSet fs k w := by
  induction fs with
  | nil => simp [assocSet]
  | cons hd tl ih =>
    obtain ⟨k0, v0⟩ := hd
    by_cases h0 : k0 = k
    · subst h0
      simp [assocSet]
    · simp [assocSet, h0, ih]

theorem assocSet_comm {α : Type} (fs : List (String × α)) (k1 k2 : String) (v w : α)
    (h : k1 ≠ k2) (hp : (assocGet fs k1).isSome = true) :
    assocSet (assocSet fs k1 v) k2 w = assocSet (assocSet fs k2 w) k1 v := by
  have hne : ¬ k2 = k1 := fun hh => h hh.symm
  induction fs with
  | nil => simp [assocGet] at hp
  | cons hd tl ih =>
    obtain ⟨k0, v0⟩ := hd
    by_cases h1 : k0 = k1
    · subst h1
      simp [assocSet, h, hne]
    · by_cases h2 : k0 = k2
      · subst h2
        simp [assocSet, h1, hne, h]
      · simp only [assocGet, if_neg h1] at hp
        simp [assocSet, h1, h2, ih hp]

theorem hasFile_writeBack (st : ServerState) (k k2 : String) (l : List Message) :
    hasFile (writeBack st k l) k2 = hasFile st k2 := by
  by_cases h : (assocGet st.msgFiles k).isSome = true
  · by_cases h2 : k = k2
    · subst h2
      simp [writeBack, hasFile, h, assocGet_assocSet]
    · simp [writeBack, hasFile, h, assocGet_assocSet, h2]
  · simp [writeBack, hasFile, h]

theorem fileD_writeBack (st : ServerState) (k k2 : String) (l : List Message) :
    fileD (writeBack st k l) k2 =
      if k = k2 ∧ hasFile st k then l else fileD st k2 := by
  by_cases h : (assocGet st.msgFiles k).isSome = true
  · by_cases h2 : k = k2
    · subst h2
      simp [writeBack, hasFile, h, fileD, assocGet_assocSet]
    · simp [writeBack, hasFile, h, fileD, assocGet_assocSet, h2]
  · simp [writeBack, hasFile, h, fileD]

theorem writeBack_users (st : ServerState) (k : String) (l : List Message) :
    (writeBack st k l).users = st.users := by
  unfold writeBack; split <;> rfl

theorem writeBack_tokens (st : ServerState) (k : String) (l : List Message) :
    (writeBack st k l).tokens = st.tokens := by
  unfold writeBack; split <;> rfl

theorem writeBack_blobs (st : ServerState) (k : String) (l : List Message) :
    (writeBack st k l).blobs = st.blobs := by
  unfold writeBack; split <;> rfl

theorem writeBack_blocked (st : ServerState) (k : String) (l : List Message) :
    (writeBack st k l).blocked = st.blocked := by
  unfold writeBack; split <;> rfl

theorem writeBack_writeBack_same (st : ServerState) (k : String) (l l2 : List Message) :
    writeBack (writeBack st k l) k l2 = writeBack st k l2 := by
  by_cases h : (assocGet st.msgFiles k).isSome = true
  · simp [writeBack, hasFile, h, assocGet_assocSet, assocSet_assocSet]
  · simp [writeBack, hasFile, h]

theorem writeBack_comm (st : ServerState) (k1 k2 : String) (l1 l2 : List Message)
    (h : k1 ≠ k2) :
    writeBack (writeBack st k1 l1) k2 l2 = writeBack (writeBack st k2 l2) k1 l1 := by
  have hne : ¬ k2 = k1 := fun hh => h hh.symm
  by_cases h1 : (assocGet st.msgFiles k1).isSome = true <;>
    by_cases h2 : (assocGet st.msgFiles k2).isSome = true
  · simp [writeBack, hasFile, h1, h2, assocGet_assocSet, h, hne,
      assocSet_comm st.msgFiles k1 k2 l1 l2 h h1]
  · simp [writeBack, hasFile, h1, h2, assocGet_assocSet, h, hne]
  · simp [writeBack, hasFile, h1, h2, assocGet_assocSet, h, hne]
  · simp [writeBack, hasFile, h1, h2]

theorem markOne_timestamp (R : String) (m : Message) :
    (markOne R m).timestamp = m.timestamp := by
  unfold markOne; split <;> rfl

theorem markOne_sender (R : String) (m : Message) :
    (markOne R m).sender = m.sender := by
  unfold markOne; split <;> rfl

theorem markOne_recipient (R : String) (m : Message) :
    (markOne R m).recipient = m.recipient := by
  unfold markOne; split <;> rfl

theorem eraseRead_markOne (R : String) (m : Message) :
    eraseRead (markOne R m) = eraseRead m := by
  unfold markOne eraseRead; split <;> rfl

theorem markOne_cases (R : String) (m : Message) :
    markOne R m = m ∨ (m.read = false ∧ markOne R m = { m with read := true }) := by
  unfold markOne
  by_cases h : (m.recipient == R && !m.read) = true
  · refine Or.inr ⟨?_, by simp [h]⟩
    have := (Bool.and_eq_true _ _).mp h
    simpa using this.2
  · exact Or.inl (by simp [h])

theorem markAll_read (R : String) (l : List Message) :
    ∀ m ∈ markAll R l, m.recipient = R → m.read = true := by
  intro m hm hrec
  unfold markAll at hm
  rcases List.mem_map.mp hm with ⟨m0, _, rfl⟩
  by_cases h : (m0.recipient == R && !m0.read) = true
  · simp [markOne, h]
  · have hrec0 : m0.recipient = R := by
      simpa [markOne_recipient] using hrec
    by_cases hr : m0.read = true
    · simpa [markOne, h] using hr
    · exact absurd (by simp [hrec0, hr]) h

theorem markAll_eq_self (R : String) (l : List Message)
    (h : ∀ m ∈ l, m.recipient = R → m.read = true) : markAll R l = l := by
  induction l with
  | nil => rfl
  | cons a tl ih =>
    have ha : markOne R a = a := by
      unfold markOne
      by_cases hc : (a.recipient == R && !a.read) = true
      · have hc2 := (Bool.and_eq_true _ _).mp hc
        have : a.read = true := h a (by simp) (by simpa using hc2.1)
        simp [this] at hc2
      · simp [hc]
    simp only [markAll, List.map_cons, ha]
    have := ih (fun m hm => h m (List.mem_cons_of_mem _ hm))
    simpa [markAll] using this

theorem map_eraseRead_markAll (R : String) (l : List Message) :
    (markAll R l).map eraseRead = l.map eraseRead := by
  unfold markAll
  rw [List.map_map]
  exact List.map_congr_left (fun m _ => eraseRead_markOne R m)

theorem sorted_markAll (R : String) (l : List Message)
    (h : List.Sorted tsLe l) : List.Sorted tsLe (markAll R l) := by
  unfold markAll
  refine (List.pairwise_map).mpr (h.imp ?_)
  intro a b hab
  simp only [tsLe, markOne_timestamp]
  exact hab

theorem filter_sender_markAll (R s : String) (l : List Message) :
    (markAll R l).filter (fun m => m.sender == s) =
      markAll R (l.filter (fun m => m.sender == s)) := by
  induction l with
  | nil => rfl
  | cons a tl ih =>
    have ih2 : List.filter (fun m => m.sender == s) (List.map (markOne R) tl) =
        List.map (markOne R) (List.filter (fun m => m.sender == s) tl) := by
      simpa [markAll] using ih
    by_cases h : (a.sender == s) = true
    · simp [markAll, List.filter_cons, markOne_sender, h, ih2]
    · simp [markAll, List.filter_cons, markOne_sender, h, ih2]

theorem orderedInsert_of_forall_le (a : Message) (M : List Message)
    (h : ∀ x ∈ M, tsLe a x) : List.orderedInsert tsLe a M = a :: M := by
  cases M with
  | nil => rfl
  | cons b l => simp [List.orderedInsert, h b (by simp)]

theorem filter_orderedInsert_pos (p : Message → Bool) (a : Message) (M : List Message)
    (hs : List.Sorted tsLe M) (hp : p a = true) :
    (List.orderedInsert tsLe a M).filter p =
      List.orderedInsert tsLe a (M.filter p) := by
  induction M with
  | nil => simp [List.orderedInsert, hp]
  | cons b l ih =>
    by_cases hab : tsLe a b
    · have h1 : List.orderedInsert tsLe a (b :: l) = a :: b :: l := by
        simp [List.orderedInsert, hab]
      have hall : ∀ x ∈ List.filter p (b :: l), tsLe a x := by
        intro x hx
        rcases List.mem_cons.mp (List.mem_of_mem_filter hx) with rfl | hxl2
        · exact hab
        · exact tsLe_trans hab (List.rel_of_sorted_cons hs x hxl2)
      rw [h1, orderedInsert_of_forall_le a _ hall]
      simp [List.filter_cons, hp]
    · have h1 : List.orderedInsert tsLe a (b :: l) =
          b :: List.orderedInsert tsLe a l := by
        simp [List.orderedInsert, hab]
      rw [h1]
      by_cases hb : p b = true
      · simp only [List.filter_cons, hb, if_true]
        rw [ih hs.of_cons]
        simp [List.orderedInsert, hab]
      · simp only [List.filter_cons, hb, Bool.false_eq_true, if_false]
        exact ih hs.of_cons

theorem filter_orderedInsert_neg (p : Message → Bool) (a : Message) (M : List Message)
    (hp : p a = false) :
    (List.orderedInsert tsLe a M).filter p = M.filter p := by
  induction M with
  | nil => simp [List.orderedInsert, hp]
  | cons b l ih =>
    by_cases hab : tsLe a b
    · simp [List.orderedInsert, hab, List.filter_cons, hp]
    · have h1 : List.orderedInsert tsLe a (b :: l) =
          b :: List.orderedInsert tsLe a l := by
        simp [List.orderedInsert, hab]
      rw [h1]
      by_cases hb : p b = true
      · simp [List.filter_cons, hb, ih]
      · simp [List.filter_cons, hb, ih]

theorem sort_partition (l1 l2 : List Message) (p q : Message → Bool)
    (h1s : List.Sorted tsLe l1) (h2s : List.Sorted tsLe l2)
    (h1p : ∀ x ∈ l1, p x = true) (h1q : ∀ x ∈ l1, q x = false)
    (h2p : ∀ x ∈ l2, p x = false) (h2q : ∀ x ∈ l2, q x = true) :
    (List.insertionSort tsLe (l1 ++ l2)).filter p = l1 ∧
      (List.insertionSort tsLe (l1 ++ l2)).filter q = l2 := by
  induction l1 with
  | nil =>
    simp only [List.nil_append, h2s.insertionSort_eq]
    constructor
    · exact List.filter_eq_nil_iff.mpr (by simpa using h2p)
    · exact List.filter_eq_self.mpr h2q
  | cons a tl ih =>
    have ihs := ih h1s.of_cons (fun x hx => h1p x (by simp [hx]))
      (fun x hx => h1q x (by simp [hx]))
    have hsort : List.Sorted tsLe (List.insertionSort tsLe (tl ++ l2)) :=
      List.sorted_insertionSort tsLe _
    have hstep : List.insertionSort tsLe ((a :: tl) ++ l2) =
        List.orderedInsert tsLe a (List.insertionSort tsLe (tl ++ l2)) := rfl
    constructor
    · rw [hstep, filter_orderedInsert_pos p a _ hsort (h1p a (by simp)), ihs.1]
      refine orderedInsert_of_forall_le a tl ?_
      exact List.rel_of_sorted_cons h1s
    · rw [hstep, filter_orderedInsert_neg q a _ (h1q a (by simp)), ihs.2]

theorem fileD_saveMessage_self (st : ServerState) (A B : String) (m : Message) :
    fileD (saveMessage st A B m) (fname A B) = fileD st (fname A B) ++ [m] := by
  simp [fileD, saveMessage, assocGet_assocSet]

theorem fileD_of_not_hasFile (st : ServerState) (k : String)
    (h : ¬ hasFile st k) : fileD st k = [] := by
  unfold hasFile at h
  unfold fileD
  cases hh : assocGet st.msgFiles k with
  | none => rfl
  | some v => rw [hh] at h; simp at h

theorem fetchConv_fst (st : ServerState) (R peer : String) :
    (fetchConv st R peer).1 =
      writeBack
        (writeBack st (fname R peer)
          ((markAll R (getMessages st R peer)).filter (fun m => m.sender == R)))
        (fname peer R)
        ((markAll R (getMessages st R peer)).filter (fun m => m.sender == peer)) := rfl

theorem fetchConv_snd (st : ServerState) (R peer : String) :
    (fetchConv st R peer).2 = markAll R (getMessages st R peer) := rfl

theorem getMessages_eq (st : ServerState) (s r : String) :
    getMessages st s r =
      List.insertionSort tsLe (fileD st (fname s r) ++ fileD st (fname r s)) := rfl

theorem assocGet_writeBack (st : ServerState) (kx k : String) (l : List Message) :
    assocGet (writeBack st kx l).msgFiles k =
      if kx = k ∧ hasFile st kx then some l else assocGet st.msgFiles k := by
  by_cases h : (assocGet st.msgFiles kx).isSome = true
  · by_cases h2 : kx = k
    · subst h2
      simp [writeBack, hasFile, h, assocGet_assocSet]
    · simp [writeBack, hasFile, h, assocGet_assocSet, h2]
  · simp [writeBack, hasFile, h]

theorem fileD_saveMessage (st : ServerState) (s r k : String) (mm : Message) :
    fileD (saveMessage st s r mm) k =
      if fname s r = k then fileD st (fname s r) ++ [mm] else fileD st k := by
  by_cases h : fname s r = k
  · subst h
    simp [fileD, saveMessage, assocGet_assocSet]
  · simp [fileD, saveMessage, assocGet_assocSet, h]

theorem assocGet_filter_key {α : Type} (fs : List (String × α))
    (pred : String → Bool) (k : String) :
    assocGet (fs.filter (fun f => pred f.1)) k =
      if pred k then assocGet fs k else none := by
  induction fs with
  | nil => by_cases h : pred k = true <;> simp [assocGet, h]
  | cons hd tl ih =>
    obtain ⟨k0, v0⟩ := hd
    by_cases h0 : pred k0 = true
    · by_cases hk : k0 = k
      · subst hk
        simp [List.filter_cons, h0, assocGet]
      · simp [List.filter_cons, h0, assocGet, hk, ih]
    · by_cases hk : k0 = k
      · subst hk
        simp only [List.filter_cons, h0]
        simp only [Bool.false_eq_true, if_false]
        rw [ih]
        simp [h0]
      · simp [List.filter_cons, h0, assocGet, hk, ih]

theorem ne_of_fname_ne (R peer : String) (hk : fname R peer ≠ fname peer R) :
    R ≠ peer := fun h => hk (by rw [h])

theorem mem_markAll_sender_cases (st : ServerState) (R peer : String)
    (hWF1 : ∀ m ∈ fileD st (fname R peer), m.sender = R ∧ m.recipient = peer)
    (hWF2 : ∀ m ∈ fileD st (fname peer R), m.sender = peer ∧ m.recipient = R) :
    ∀ m ∈ markAll R (getMessages st R peer),
      (m.sender = R ∧ m.recipient = peer) ∨ (m.sender = peer ∧ m.recipient = R) := by
  intro m hm
  unfold markAll getMessages at hm
  rcases List.mem_map.mp hm with ⟨m0, hm0, rfl⟩
  rcases List.mem_append.mp ((List.mem_insertionSort tsLe).mp hm0) with h | h
  · exact Or.inl (by rw [markOne_sender, markOne_recipient]; exact hWF1 m0 h)
  · exact Or.inr (by rw [markOne_sender, markOne_recipient]; exact hWF2 m0 h)

theorem fetchConv_file_reader (st : ServerState) (R peer : String)
    (hk : fname R peer ≠ fname peer R)
    (hWF2 : ∀ m ∈ fileD st (fname peer R), m.sender = peer ∧ m.recipient = R) :
    fileD (fetchConv st R peer).1 (fname R peer) =
      (markAll R (getMessages st R peer)).filter (fun m => m.sender == R) := by
  have hRp := ne_of_fname_ne R peer hk
  rw [fetchConv_fst, fileD_writeBack, fileD_writeBack]
  rw [if_neg (fun hh => hk hh.1.symm)]
  by_cases h : hasFile st (fname R peer)
  · rw [if_pos ⟨rfl, h⟩]
  · rw [if_neg (fun hh => h hh.2)]
    rw [fileD_of_not_hasFile st _ h]
    symm
    apply List.filter_eq_nil_iff.mpr
    intro x hx
    unfold markAll getMessages at hx
    rcases List.mem_map.mp hx with ⟨m0, hm0, rfl⟩
    have hm0ab := (List.mem_insertionSort tsLe).mp hm0
    rw [fileD_of_not_hasFile st _ h, List.nil_append] at hm0ab
    have hs : (markOne R m0).sender = peer := by
      rw [markOne_sender]; exact (hWF2 m0 hm0ab).1
    rw [hs]
    simp only [beq_iff_eq]
    exact fun hh => hRp hh.symm

theorem fetchConv_file_peer (st : ServerState) (R peer : String)
    (hk : fname R peer ≠ fname peer R)
    (hWF1 : ∀ m ∈ fileD st (fname R peer), m.sender = R ∧ m.recipient = peer) :
    fileD (fetchConv st R peer).1 (fname peer R) =
      (markAll R (getMessages st R peer)).filter (fun m => m.sender == peer) := by
  have hRp := ne_of_fname_ne R peer hk
  rw [fetchConv_fst, fileD_writeBack]
  by_cases h2 : hasFile st (fname peer R)
  · rw [if_pos ⟨rfl, by rw [hasFile_writeBack]; exact h2⟩]
  · have hnf : ¬ (hasFile (writeBack st (fname R peer)
        ((markAll R (getMessages st R peer)).filter (fun m => m.sender == R)))
          (fname peer R) = true) := by
      rw [hasFile_writeBack]; exact h2
    rw [if_neg (fun hh => hnf hh.2)]
    rw [fileD_writeBack]
    rw [if_neg (fun hh => hk hh.1)]
    rw [fileD_of_not_hasFile st _ h2]
    symm
    apply List.filter_eq_nil_iff.mpr
    intro x hx
    unfold markAll getMessages at hx
    rcases List.mem_map.mp hx with ⟨m0, hm0, rfl⟩
    have hm0ab := (List.mem_insertionSort tsLe).mp hm0
    rw [fileD_of_not_hasFile st _ h2, List.append_nil] at hm0ab
    have hs : (markOne R m0).sender = R := by
      rw [markOne_sender]; exact (hWF1 m0 hm0ab).1
    rw [hs]
    simp only [beq_iff_eq]
    exact hRp

/-! ### Concrete fixture states used by the claim theorems -/

/-- A plain text message from a to b. -/
def mAB : Message :=
  { sender := "a", recipient := "b", content := "hi", timestamp := "1",
    read := false, is_file := false }

/-- A plain text message from b to a. -/
def mBA : Message :=
  { sender := "b", recipient := "a", content := "yo", timestamp := "2",
    read := false, is_file := false }

/-- A message appended first but carrying the later timestamp. -/
def mLate : Message :=
  { sender := "a", recipient := "b", content := "first", timestamp := "2",
    read := false, is_file := false }

/-- A message appended second but carrying the earlier timestamp. -/
def mEarly : Message :=
  { sender := "a", recipient := "b", content := "second", timestamp := "1",
    read := false, is_file := false }

/-- A store whose single a_b file holds the two messages in append order,
timestamps out of order. -/
def stOutOfOrder : ServerState := { msgFiles := [("a_b.json", [mLate, mEarly])] }

/-- A state in which bob blocks alice and alice holds a live session. -/
def stBlocked : ServerState :=
  { users := ["alice", "bob"], tokens := [("t1", "alice")],
    blocked := [("bob", ["alice"])] }

/-- A state with one live session for alice. -/
def stTok : ServerState := { users := ["alice"], tokens := [("t1", "alice")] }

/-- The message record of an uploaded attachment from alice to bob. -/
def attachMsg : Message :=
  { sender := "alice", recipient := "bob", content := "cat.png", timestamp := "1",
    read := false, is_file := true, file_id := some "u1_cat.png" }

/-- A state in which alice has sent bob one attachment: the message record
sits in the conversation file and the raw uploaded bytes sit in the files
directory. -/
def stUpload : ServerState :=
  { users := ["alice", "bob"], tokens := [("t1", "alice")],
    msgFiles := [("alice_bob.json", [attachMsg])],
    blobs := [("u1_cat.png", "rawcatbytes")] }

/-- A message from c to a with the same timestamp as mTieB. -/
def mTieC : Message :=
  { sender := "c", recipient := "a", content := "x", timestamp := "5",
    read := false, is_file := false }

/-- A message from b to a with the same timestamp as mTieC. -/
def mTieB : Message :=
  { sender := "b", recipient := "a", content := "y", timestamp := "5",
    read := false, is_file := false }

/-- A state with two single-message conversations for a whose last
timestamps tie, listed with the lexicographically larger peer first. -/
def stTie : ServerState :=
  { msgFiles := [("c_a.json", [mTieC]), ("b_a.json", [mTieB])] }

/-! ### Claim theorems -/

/-- C1, counterexample: the storage key of save_message is directional, so
the key for (a,b) differs from the key for (b,a), and after a send in each
direction the pair a,b owns two distinct stores, each holding one of the
two messages, refuting the claim that both sends append to one single log. -/
theorem c1_counterexample :
    fname "a" "b" ≠ fname "b" "a" ∧
    (saveMessage (saveMessage {} "a" "b" mAB) "b" "a" mBA).msgFiles =
      [(fname "a" "b", [mAB]), (fname "b" "a", [mBA])] := by
  decide

/-- C1, amended: although the two directional stores are distinct, reading
the conversation merges both files, so the messages returned are the same
collection (a permutation) whichever way the pair is ordered, and a message
saved from a to b is visible in the read from either side. -/
theorem c1_amended (st : ServerState) (A B : String) (m : Message) :
    List.Perm (getMessages st A B) (getMessages st B A) ∧
    m ∈ getMessages (saveMessage st A B m) A B ∧
    m ∈ getMessages (saveMessage st A B m) B A := by
  have hmem : m ∈ fileD (saveMessage st A B m) (fname A B) := by
    rw [fileD_saveMessage_self]
    simp
  refine ⟨?_, ?_, ?_⟩
  · exact ((List.perm_insertionSort tsLe _).trans List.perm_append_comm).trans
      (List.perm_insertionSort tsLe _).symm
  · exact (List.mem_insertionSort tsLe).mpr (List.mem_append.mpr (Or.inl hmem))
  · exact (List.mem_insertionSort tsLe).mpr (List.mem_append.mpr (Or.inr hmem))

/-- C2, counterexample: with bob blocking alice (so is_blocked_pair holds),
alice's send to bob still returns 201 success and appends the message to
the log, refuting the claim that a blocked send fails and leaves the log
unchanged. -/
theorem c2_counterexample :
    isBlockedPair stBlocked "alice" "bob" = true ∧
    (sendMessageEp stBlocked (some "Bearer t1") "bob" (some "hi") "9").2 =
      .success 201 ∧
    fileD (sendMessageEp stBlocked (some "Bearer t1") "bob" (some "hi") "9").1
        (fname "alice" "bob") =
      [{ sender := "alice", recipient := "bob", content := "hi",
         timestamp := "9", read := false, is_file := false }] := by
  decide

/-- C2, amended: the send handler performs no block check at all: whenever
the token resolves and the content is nonempty, the send succeeds with 201
and appends the message to the sender_recipient log, even when
is_blocked_pair holds for the pair. -/
theorem c2_amended (st : ServerState) (tok sender recipient content now : String)
    (htok : tok ≠ "") (hres : getUserByToken st tok = some sender)
    (hc : content ≠ "")
    (hblocked : isBlockedPair st sender recipient = true) :
    (sendMessageEp st (some tok) recipient (some content) now).2 = .success 201 ∧
    fileD (sendMessageEp st (some tok) recipient (some content) now).1
        (fname sender recipient) =
      fileD st (fname sender recipient) ++
        [{ sender := sender, recipient := recipient, content := content,
           timestamp := now, read := false, is_file := false }] := by
  have hsend : sendMessageEp st (some tok) recipient (some content) now =
      (saveMessage st sender recipient
        { sender := sender, recipient := recipient, content := content,
          timestamp := now, read := false, is_file := false }, .success 201) := by
    simp [sendMessageEp, truthy, htok, hc, hres]
  rw [hsend]
  exact ⟨rfl, fileD_saveMessage_self st sender recipient _⟩

/-- C2, witness for the amended theorem at the blocked fixture state. -/
theorem c2_witness :
    (sendMessageEp stBlocked (some "t1") "bob" (some "hello") "9").2 =
      .success 201 ∧
    fileD (sendMessageEp stBlocked (some "t1") "bob" (some "hello") "9").1
        (fname "alice" "bob") =
      fileD stBlocked (fname "alice" "bob") ++
        [{ sender := "alice", recipient := "bob", content := "hello",
           timestamp := "9", read := false, is_file := false }] :=
  c2_amended stBlocked "t1" "alice" "bob" "hello" "9"
    (by decide) (by decide) (by decide) (by decide)

/-- C3, counterexample: the a_b file stores mLate then mEarly in append
order, but listing returns them re-sorted by timestamp string, refuting the
claim that listing returns append order and never orders by timestamp
comparison. -/
theorem c3_counterexample :
    fileD stOutOfOrder (fname "a" "b") = [mLate, mEarly] ∧
    getMessages stOutOfOrder "a" "b" = [mEarly, mLate] := by
  decide

/-- C3, amended: listing returns the two directional files merged and
stably sorted by timestamp string, hence a permutation of their
concatenation that is sorted by timestamp, and a conversation with neither
file present yields the empty sequence rather than an error. -/
theorem c3_amended (st : ServerState) (s r : String) :
    List.Sorted tsLe (getMessages st s r) ∧
    List.Perm (getMessages st s r)
      (fileD st (fname s r) ++ fileD st (fname r s)) ∧
    (assocGet st.msgFiles (fname s r) = none →
      assocGet st.msgFiles (fname r s) = none → getMessages st s r = []) := by
  refine ⟨List.sorted_insertionSort tsLe _, List.perm_insertionSort tsLe _, ?_⟩
  intro h1 h2
  simp [getMessages, fileD, h1, h2]

/-- C3, witness for the amended theorem: a store with no files at all lists
the empty conversation. -/
theorem c3_witness : getMessages ({} : ServerState) "a" "b" = [] :=
  (c3_amended {} "a" "b").2.2 rfl rfl

/-- C4: the account deletion purge never drops the attachments a user
sent.  The handler tries to find them by parsing each stored blob as JSON
and reading a sender key, but the upload path stores the raw uploaded
bytes, which do not parse that way, so the check never fires: after alice
deletes her account her tokens and conversation logs are gone, yet the
blob she uploaded is still registered, contradicting the claim (and the
handler's own stated purpose of deleting all files sent by the user). -/
theorem c4_code_bug (jsonSender : String → Option String)
    (hjs : jsonSender "rawcatbytes" = none) :
    (deleteAccountEp stUpload (some "Bearer t1") jsonSender).2 = .success 200 ∧
    (deleteAccountEp stUpload (some "Bearer t1") jsonSender).1.tokens = [] ∧
    (deleteAccountEp stUpload (some "Bearer t1") jsonSender).1.msgFiles = [] ∧
    (deleteAccountEp stUpload (some "Bearer t1") jsonSender).1.blobs =
      [("u1_cat.png", "rawcatbytes")] := by
  have hstep : deleteAccountEp stUpload (some "Bearer t1") jsonSender =
      (deleteAccountCore stUpload "alice" jsonSender, .success 200) := by rfl
  rw [hstep]
  refine ⟨rfl, rfl, rfl, ?_⟩
  have hblobs : (deleteAccountCore stUpload "alice" jsonSender).blobs =
      stUpload.blobs.filter (fun b => !(jsonSender b.2 == some "alice")) := rfl
  rw [hblobs]
  simp [stUpload, hjs]

/-- C4, witness: the theorem applied to the oracle that parses nothing,
which is how json.load behaves on the raw bytes of this upload. -/
theorem c4_witness :
    (deleteAccountEp stUpload (some "Bearer t1") (fun _ => none)).2 =
      .success 200 ∧
    (deleteAccountEp stUpload (some "Bearer t1") (fun _ => none)).1.tokens = [] ∧
    (deleteAccountEp stUpload (some "Bearer t1") (fun _ => none)).1.msgFiles = [] ∧
    (deleteAccountEp stUpload (some "Bearer t1") (fun _ => none)).1.blobs =
      [("u1_cat.png", "rawcatbytes")] :=
  c4_code_bug (fun _ => none) rfl

/-- C6, counterexample: two conversations of a, with c and with b, tie on
the last timestamp; the summaries come back with peer c before peer b,
directory order, not peer handle ascending, refuting the claimed
deterministic tie-break. -/
theorem c6_counterexample :
    (getUserChats stTie "a").map Chat.username = ["c", "b"] ∧
    (getUserChats stTie "a").map Chat.timestamp = ["5", "5"] := by
  decide

/-- C6, amended: the summaries are one candidate row per directory entry
that parses to a pair involving the user and has messages (so a pair split
over two directional files contributes two rows), sorted by last timestamp
descending; equal timestamps keep directory-listing order, so the order is
not deterministic across listings. -/
theorem c6_amended (st : ServerState) (u : String) :
    List.Sorted chatGe (getUserChats st u) ∧
    List.Perm (getUserChats st u) (st.msgFiles.filterMap (chatOfFile st u)) :=
  ⟨List.sorted_insertionSort chatGe _, List.perm_insertionSort chatGe _⟩

/-- C9: logging out with the same Bearer-prefixed header that every
protected endpoint accepts returns 200 success but destroys nothing: the
handler deletes the raw header string from the token table without
stripping the Bearer prefix, so the session still resolves afterwards.
With the bare token the logout does revoke, and logout without any header
also returns 200. -/
theorem c9_code_bug :
    getUserByToken stTok "Bearer t1" = some "alice" ∧
    (logoutEp stTok (some "Bearer t1")).2 = .success 200 ∧
    (logoutEp stTok (some "Bearer t1")).1 = stTok ∧
    getUserByToken (logoutEp stTok (some "Bearer t1")).1 "Bearer t1" =
      some "alice" ∧
    (logoutEp stTok (some "t1")).2 = .success 200 ∧
    getUserByToken (logoutEp stTok (some "t1")).1 "t1" = none ∧
    (logoutEp stTok none).2 = .success 200 := by
  decide

/-- A store holding one unread message from a to b, for exercising the
fetch path as reader b. -/
def stFetch : ServerState := { msgFiles := [("a_b.json", [mAB])] }

/-- C5: the fetch operation marks as read every message addressed to the
reader, both in the returned list and in the conversation files it writes
back, and the returned list is, up to read flags, made of exactly the
messages of the two directional files of that conversation. -/
theorem c5_mark_read_and_return (st : ServerState) (R peer : String) :
    (∀ m ∈ (fetchConv st R peer).2, m.recipient = R → m.read = true) ∧
    (∀ x, x ∈ (fetchConv st R peer).2.map eraseRead ↔
      x ∈ (fileD st (fname R peer) ++ fileD st (fname peer R)).map eraseRead) ∧
    (∀ m, m ∈ fileD (fetchConv st R peer).1 (fname R peer) ∨
          m ∈ fileD (fetchConv st R peer).1 (fname peer R) →
      m.recipient = R → m.read = true) := by
  have hMread : ∀ m ∈ markAll R (getMessages st R peer),
      m.recipient = R → m.read = true := markAll_read R _
  refine ⟨?_, ?_, ?_⟩
  · rw [fetchConv_snd]
    exact hMread
  · have hperm : List.Perm ((fetchConv st R peer).2.map eraseRead)
        ((fileD st (fname R peer) ++ fileD st (fname peer R)).map eraseRead) := by
      rw [fetchConv_snd, map_eraseRead_markAll]
      exact (List.perm_insertionSort tsLe _).map eraseRead
    exact fun x => hperm.mem_iff
  · intro m hm hrec
    rcases hm with hm1 | hm1
    · rw [fetchConv_fst, fileD_writeBack, fileD_writeBack] at hm1
      split at hm1
      · exact hMread m (List.mem_of_mem_filter hm1) hrec
      · split at hm1
        · exact hMread m (List.mem_of_mem_filter hm1) hrec
        · rename_i hc2
          have hnf : ¬ hasFile st (fname R peer) := fun hh => hc2 ⟨rfl, hh⟩
          rw [fileD_of_not_hasFile st _ hnf] at hm1
          simp at hm1
    · rw [fetchConv_fst, fileD_writeBack, fileD_writeBack] at hm1
      split at hm1
      · exact hMread m (List.mem_of_mem_filter hm1) hrec
      · rename_i hc1
        split at hm1
        · exact hMread m (List.mem_of_mem_filter hm1) hrec
        · have hnf : ¬ hasFile (writeBack st (fname R peer)
              ((markAll R (getMessages st R peer)).filter
                (fun mm => mm.sender == R))) (fname peer R) :=
            fun hh => hc1 ⟨rfl, hh⟩
          rw [hasFile_writeBack] at hnf
          rw [fileD_of_not_hasFile st _ hnf] at hm1
          simp at hm1

/-- C5, witness: applying the theorem at a one-message store read by the
recipient shows the returned message comes back marked read. -/
theorem c5_witness : ({ mAB with read := true } : Message).read = true :=
  (c5_mark_read_and_return stFetch "b" "a").1 { mAB with read := true }
    (by decide) (by decide)

/-- An unread note a user left for themselves. -/
def mSelf : Message :=
  { sender := "r", recipient := "r", content := "note", timestamp := "1",
    read := false, is_file := false }

/-- A store holding a single-message self-conversation of user r. -/
def stSelf : ServerState := { msgFiles := [("r_r.json", [mSelf])] }

/-- C7, counterexample: for a self-conversation both directional paths
are the same file, the fetch reads it twice and writes the doubled list
back, so each fetch doubles the stored log: one fetch leaves two copies,
a second fetch leaves four, and the stored state after two fetches
differs from the state after one, refuting idempotence as claimed for
every log and reader. -/
theorem c7_counterexample :
    (fileD (fetchConv stSelf "r" "r").1 "r_r.json").length = 2 ∧
    (fileD (fetchConv (fetchConv stSelf "r" "r").1 "r" "r").1 "r_r.json").length = 4 ∧
    (fetchConv (fetchConv stSelf "r" "r").1 "r" "r").1 ≠
      (fetchConv stSelf "r" "r").1 := by
  decide

/-- C7, amended: for a conversation whose two directional filenames are
distinct (any two distinct handles without underscores) and whose files
are well formed, the fetch operation is idempotent: a second fetch leaves
the stored state exactly as the first left it, and returns the same
messages up to order. -/
theorem c7_amended (st : ServerState) (R peer : String)
    (hk : fname R peer ≠ fname peer R)
    (hWF1 : ∀ m ∈ fileD st (fname R peer), m.sender = R ∧ m.recipient = peer)
    (hWF2 : ∀ m ∈ fileD st (fname peer R), m.sender = peer ∧ m.recipient = R) :
    (fetchConv (fetchConv st R peer).1 R peer).1 = (fetchConv st R peer).1 ∧
    List.Perm (fetchConv (fetchConv st R peer).1 R peer).2
      (fetchConv st R peer).2 := by
  have hRp := ne_of_fname_ne R peer hk
  have hMsort : List.Sorted tsLe (markAll R (getMessages st R peer)) := by
    apply sorted_markAll
    unfold getMessages
    exact List.sorted_insertionSort tsLe _
  have hMcases := mem_markAll_sender_cases st R peer hWF1 hWF2
  have hMread := markAll_read R (getMessages st R peer)
  have hf1 := fetchConv_file_reader st R peer hk hWF2
  have hf2 := fetchConv_file_peer st R peer hk hWF1
  have hA : ∀ x ∈ (markAll R (getMessages st R peer)).filter
      (fun m => m.sender == R), x.sender = R ∧ x.recipient = peer := by
    intro x hx
    have hxM := List.mem_of_mem_filter hx
    have hxs : x.sender = R := by simpa using (List.mem_filter.mp hx).2
    rcases hMcases x hxM with h | h
    · exact h
    · exact absurd (hxs.symm.trans h.1) hRp
  have hB : ∀ x ∈ (markAll R (getMessages st R peer)).filter
      (fun m => m.sender == peer),
      x.sender = peer ∧ x.recipient = R ∧ x.read = true := by
    intro x hx
    have hxM := List.mem_of_mem_filter hx
    have hxs : x.sender = peer := by simpa using (List.mem_filter.mp hx).2
    rcases hMcases x hxM with h | h
    · exact absurd (hxs.symm.trans h.1).symm hRp
    · exact ⟨hxs, h.2, hMread x hxM h.2⟩
  have hM2 : markAll R (getMessages (fetchConv st R peer).1 R peer) =
      List.insertionSort tsLe
        ((markAll R (getMessages st R peer)).filter (fun m => m.sender == R) ++
         (markAll R (getMessages st R peer)).filter (fun m => m.sender == peer)) := by
    have hg : getMessages (fetchConv st R peer).1 R peer =
        List.insertionSort tsLe
          ((markAll R (getMessages st R peer)).filter (fun m => m.sender == R) ++
           (markAll R (getMessages st R peer)).filter (fun m => m.sender == peer)) := by
      rw [getMessages_eq ((fetchConv st R peer).1) R peer, hf1, hf2]
    rw [hg]
    apply markAll_eq_self
    intro m hm hrec
    rcases List.mem_append.mp ((List.mem_insertionSort tsLe).mp hm) with h | h
    · exact absurd ((hA m h).2.symm.trans hrec).symm hRp
    · exact (hB m h).2.2
  have hpart := sort_partition
    ((markAll R (getMessages st R peer)).filter (fun m => m.sender == R))
    ((markAll R (getMessages st R peer)).filter (fun m => m.sender == peer))
    (fun m => m.sender == R) (fun m => m.sender == peer)
    (hMsort.filter _) (hMsort.filter _)
    (fun x hx => (List.mem_filter.mp hx).2)
    (fun x hx => by
      show (x.sender == peer) = false
      rw [(hA x hx).1]
      simp only [beq_eq_false_iff_ne, ne_eq]
      exact fun hh => hRp hh)
    (fun x hx => by
      show (x.sender == R) = false
      rw [(hB x hx).1]
      simp only [beq_eq_false_iff_ne, ne_eq]
      exact fun hh => hRp hh.symm)
    (fun x hx => (List.mem_filter.mp hx).2)
  constructor
  · rw [fetchConv_fst ((fetchConv st R peer).1) R peer, hM2, hpart.1, hpart.2]
    rw [fetchConv_fst st R peer]
    rw [writeBack_comm
      (writeBack st (fname R peer)
        ((markAll R (getMessages st R peer)).filter (fun m => m.sender == R)))
      (fname peer R) (fname R peer)
      ((markAll R (getMessages st R peer)).filter (fun m => m.sender == peer))
      ((markAll R (getMessages st R peer)).filter (fun m => m.sender == R))
      (fun hh => hk hh.symm)]
    rw [writeBack_writeBack_same, writeBack_writeBack_same]
  · rw [fetchConv_snd ((fetchConv st R peer).1) R peer, hM2,
      fetchConv_snd st R peer]
    refine (List.perm_insertionSort tsLe _).trans ?_
    have hq : (markAll R (getMessages st R peer)).filter (fun m => m.sender == peer) =
        (markAll R (getMessages st R peer)).filter (fun m => !(m.sender == R)) := by
      apply List.filter_congr
      intro x hx
      rcases hMcases x hx with h | h
      · rw [h.1]
        have e1 : (R == peer) = false := beq_eq_false_iff_ne.mpr hRp
        have e2 : (R == R) = true := beq_self_eq_true R
        rw [e1, e2]
        rfl
      · rw [h.1]
        have e1 : (peer == peer) = true := beq_self_eq_true peer
        have e2 : (peer == R) = false :=
          beq_eq_false_iff_ne.mpr (fun hh => hRp hh.symm)
        rw [e1, e2]
        rfl
    rw [hq]
    exact List.filter_append_perm _ _

/-- C7, witness for the amended theorem at a two-user fixture. -/
theorem c7_witness :
    (fetchConv (fetchConv stFetch "b" "a").1 "b" "a").1 =
      (fetchConv stFetch "b" "a").1 ∧
    List.Perm (fetchConv (fetchConv stFetch "b" "a").1 "b" "a").2
      (fetchConv stFetch "b" "a").2 :=
  c7_amended stFetch "b" "a" (by decide) (by decide) (by decide)

/-- C10, counterexample: fetching a self-conversation reads the single
file as both directional paths, so the written store holds every message
twice: the stored multiset, even taken up to read flags, gains a message,
refuting the claim for every stored conversation state and reader. -/
theorem c10_counterexample :
    (fileD stSelf "r_r.json").map eraseRead = [mSelf] ∧
    (fileD (fetchConv stSelf "r" "r").1 "r_r.json").map eraseRead =
      [mSelf, mSelf] := by
  decide

/-- C10, amended: for a conversation whose two directional filenames are
distinct and whose files are well formed, the fetch mutates only read
flags: every other file is untouched, no file is created or removed, each
of the two conversation files keeps the same messages up to read flags,
and the users, tokens, blobs and block registry are unchanged. -/
theorem c10_amended (st : ServerState) (R peer : String)
    (hk : fname R peer ≠ fname peer R)
    (hWF1 : ∀ m ∈ fileD st (fname R peer), m.sender = R ∧ m.recipient = peer)
    (hWF2 : ∀ m ∈ fileD st (fname peer R), m.sender = peer ∧ m.recipient = R) :
    (∀ k, k ≠ fname R peer → k ≠ fname peer R →
      assocGet (fetchConv st R peer).1.msgFiles k = assocGet st.msgFiles k) ∧
    (∀ k, hasFile (fetchConv st R peer).1 k = hasFile st k) ∧
    List.Perm ((fileD (fetchConv st R peer).1 (fname R peer)).map eraseRead)
      ((fileD st (fname R peer)).map eraseRead) ∧
    List.Perm ((fileD (fetchConv st R peer).1 (fname peer R)).map eraseRead)
      ((fileD st (fname peer R)).map eraseRead) ∧
    (fetchConv st R peer).1.users = st.users ∧
    (fetchConv st R peer).1.tokens = st.tokens ∧
    (fetchConv st R peer).1.blobs = st.blobs ∧
    (fetchConv st R peer).1.blocked = st.blocked := by
  have hRp := ne_of_fname_ne R peer hk
  refine ⟨?_, ?_, ?_, ?_, ?_, ?_, ?_, ?_⟩
  · intro k hk1 hk2
    rw [fetchConv_fst, assocGet_writeBack, assocGet_writeBack]
    rw [if_neg (fun hh => hk2 hh.1.symm), if_neg (fun hh => hk1 hh.1.symm)]
  · intro k
    rw [fetchConv_fst, hasFile_writeBack, hasFile_writeBack]
  · rw [fetchConv_file_reader st R peer hk hWF2]
    rw [filter_sender_markAll, map_eraseRead_markAll]
    refine List.Perm.map eraseRead ?_
    have hperm : List.Perm
        ((getMessages st R peer).filter (fun m => m.sender == R))
        ((fileD st (fname R peer) ++ fileD st (fname peer R)).filter
          (fun m => m.sender == R)) := by
      rw [getMessages_eq]
      exact (List.perm_insertionSort tsLe _).filter _
    rw [List.filter_append] at hperm
    have ha : (fileD st (fname R peer)).filter (fun m => m.sender == R) =
        fileD st (fname R peer) := by
      apply List.filter_eq_self.mpr
      intro m hm
      show (m.sender == R) = true
      rw [(hWF1 m hm).1]
      exact beq_self_eq_true R
    have hb : (fileD st (fname peer R)).filter (fun m => m.sender == R) = [] := by
      apply List.filter_eq_nil_iff.mpr
      intro m hm
      show ¬ (m.sender == R) = true
      rw [(hWF2 m hm).1]
      simp only [beq_iff_eq]
      exact fun hh => hRp hh.symm
    rw [ha, hb, List.append_nil] at hperm
    exact hperm
  · rw [fetchConv_file_peer st R peer hk hWF1]
    rw [filter_sender_markAll, map_eraseRead_markAll]
    refine List.Perm.map eraseRead ?_
    have hperm : List.Perm
        ((getMessages st R peer).filter (fun m => m.sender == peer))
        ((fileD st (fname R peer) ++ fileD st (fname peer R)).filter
          (fun m => m.sender == peer)) := by
      rw [getMessages_eq]
      exact (List.perm_insertionSort tsLe _).filter _
    rw [List.filter_append] at hperm
    have ha : (fileD st (fname R peer)).filter (fun m => m.sender == peer) = [] := by
      apply List.filter_eq_nil_iff.mpr
      intro m hm
      show ¬ (m.sender == peer) = true
      rw [(hWF1 m hm).1]
      simp only [beq_iff_eq]
      exact hRp
    have hb : (fileD st (fname peer R)).filter (fun m => m.sender == peer) =
        fileD st (fname peer R) := by
      apply List.filter_eq_self.mpr
      intro m hm
      show (m.sender == peer) = true
      rw [(hWF2 m hm).1]
      exact beq_self_eq_true peer
    rw [ha, hb, List.nil_append] at hperm
    exact hperm
  · rw [fetchConv_fst, writeBack_users, writeBack_users]
  · rw [fetchConv_fst, writeBack_tokens, writeBack_tokens]
  · rw [fetchConv_fst, writeBack_blobs, writeBack_blobs]
  · rw [fetchConv_fst, writeBack_blocked, writeBack_blocked]

/-- C10, witness for the amended theorem at the two-user fixture: the
reader-side file after the fetch holds the same messages up to read
flags. -/
theorem c10_witness :
    List.Perm ((fileD (fetchConv stFetch "b" "a").1 (fname "b" "a")).map eraseRead)
      ((fileD stFetch (fname "b" "a")).map eraseRead) :=
  (c10_amended stFetch "b" "a" (by decide) (by decide) (by decide)).2.2.1

/-- C8: no operation of the service ever turns a read message back into
an unread one.  Stated as provenance: any message that is unread in any
file after an operation is either a message that was already present
(hence already unread) in some file before it, or the fresh message the
operation itself appended, which is created unread.  Combined with the
fact that messages are only ever rewritten by the mark pass, which sets
read flags to true, no read-to-unread transition is possible. -/
theorem c8_no_unread_transition (op : Op) (st : ServerState) (k : String)
    (m : Message) (hm : m ∈ fileD (op.step st) k) (hunread : m.read = false) :
    (∃ k0, m ∈ fileD st k0) ∨ m ∈ op.newMsgs := by
  cases op with
  | send s r c now =>
    simp only [Op.step] at hm
    rw [fileD_saveMessage] at hm
    split at hm
    · rcases List.mem_append.mp hm with h | h
      · exact Or.inl ⟨fname s r, h⟩
      · simp only [List.mem_singleton] at h
        subst h
        exact Or.inr (by simp [Op.newMsgs])
    · exact Or.inl ⟨k, hm⟩
  | sendFile s r orig fid bytes now =>
    simp only [Op.step] at hm
    rw [fileD_saveMessage] at hm
    have hb : ∀ k2, fileD { st with blobs := st.blobs ++ [(fid, bytes)] } k2 =
        fileD st k2 := fun _ => rfl
    split at hm
    · rcases List.mem_append.mp hm with h | h
      · rw [hb] at h
        exact Or.inl ⟨fname s r, h⟩
      · simp only [List.mem_singleton] at h
        subst h
        exact Or.inr (by simp [Op.newMsgs])
    · rw [hb] at hm
      exact Or.inl ⟨k, hm⟩
  | fetch R peer =>
    simp only [Op.step] at hm
    rw [fetchConv_fst, fileD_writeBack, fileD_writeBack] at hm
    have hM : ∀ x ∈ markAll R (getMessages st R peer), x.read = false →
        ∃ k0, x ∈ fileD st k0 := by
      intro x hx hxr
      unfold markAll getMessages at hx
      rcases List.mem_map.mp hx with ⟨m0, hm0, rfl⟩
      rcases List.mem_append.mp ((List.mem_insertionSort tsLe).mp hm0) with h | h
      · rcases markOne_cases R m0 with he | ⟨hr0, he⟩
        · rw [he]
          exact ⟨fname R peer, h⟩
        · rw [he] at hxr
          simp at hxr
      · rcases markOne_cases R m0 with he | ⟨hr0, he⟩
        · rw [he]
          exact ⟨fname peer R, h⟩
        · rw [he] at hxr
          simp at hxr
    split at hm
    · exact Or.inl (hM m (List.mem_of_mem_filter hm) hunread)
    · split at hm
      · exact Or.inl (hM m (List.mem_of_mem_filter hm) hunread)
      · exact Or.inl ⟨k, hm⟩
  | delChat u p =>
    simp only [Op.step] at hm
    have hfd : fileD (deleteChatCore st u p) k =
        if (k != fname u p && k != fname p u) then fileD st k else [] := by
      unfold fileD deleteChatCore
      rw [assocGet_filter_key st.msgFiles
        (fun key => key != fname u p && key != fname p u) k]
      split <;> rfl
    rw [hfd] at hm
    split at hm
    · exact Or.inl ⟨k, hm⟩
    · simp at hm
  | delAccount u js =>
    simp only [Op.step] at hm
    have hfd : fileD (deleteAccountCore st u js) k =
        if !(involvesUser u k) then fileD st k else [] := by
      unfold fileD deleteAccountCore
      rw [assocGet_filter_key st.msgFiles (fun key => !(involvesUser u key)) k]
      split <;> rfl
    rw [hfd] at hm
    split at hm
    · exact Or.inl ⟨k, hm⟩
    · simp at hm
  | logout auth =>
    have hms : (logoutEp st auth).1.msgFiles = st.msgFiles := by
      unfold logoutEp
      cases h : truthy auth with
      | none => rfl
      | some t =>
        split
        · rfl
        · split <;> rfl
    simp only [Op.step] at hm
    have : fileD (logoutEp st auth).1 k = fileD st k := by
      unfold fileD
      rw [hms]
    rw [this] at hm
    exact Or.inl ⟨k, hm⟩

/-- C8, witness: the theorem applied to a send into the empty store; the
freshly appended message is accounted for as the operation's new
message. -/
theorem c8_witness :
    (∃ k0, mAB ∈ fileD ({} : ServerState) k0) ∨
      mAB ∈ (Op.send "a" "b" "hi" "1").newMsgs :=
  c8_no_unread_transition (Op.send "a" "b" "hi" "1") {} "a_b.json" mAB
    (by decide) rfl

end TerminalChat
